import Mathlib

/-
Verification of the chunked-store / dashboard-analytics layer of the
realdataint2 repository.

The definitions below are a shallow embedding of the TypeScript source:
scalar cell values become an inductive type, rows become association
lists, and the dashboard filter / unique-value / sorting functions are
translated function-for-function from the Analytics component and the
ChartBuilder component.  JavaScript-specific behaviour is modelled
explicitly: truthiness, the coercions performed by String(...), the
code-unit lexicographic order used by Array.prototype.sort on strings,
and ASCII case folding for toLowerCase.  Date handling assumes a UTC
environment (local time = UTC), and Date.parse is modelled on ISO
`yyyy-mm-dd` and `yyyy-mm-ddThh:mm:ss` strings, the formats the
application itself produces and consumes.
-/

/-- Scalar cell values of a row.  The data model restricts row scalars to
strings, numbers, or date-like strings; `null` is included because the
filter code tests for it explicitly.  Numbers are modelled as integers:
no claim in this development depends on non-integral numeric values. -/
inductive JSValue where
  | str (s : String)
  | num (n : Int)
  | null
deriving DecidableEq, Repr

/-- A row is a mapping from column name to scalar; keys may be absent
(sparse rows).  An absent key reads as JavaScript `undefined`, i.e.
`none` here. -/
abbrev RawRow := List (String × JSValue)

/-- Reading `row[column]`: the first binding for the column, if any. -/
def lookupRow (row : RawRow) (col : String) : Option JSValue :=
  (row.find? (fun p => p.1 = col)).map (fun p => p.2)

/-- JavaScript truthiness of a scalar: the empty string, the number 0 and
`null` are falsy; every other modelled scalar is truthy. -/
def jsTruthy : JSValue → Bool
  | JSValue.str s => s ≠ ""
  | JSValue.num n => n ≠ 0
  | JSValue.null => false

/-- Code unit of a character (UTF-16 code unit for the Basic Multilingual
Plane, which is where every string of this development lives). -/
def charCode (c : Char) : Nat := c.val.toNat

/-- Decimal digits of a natural number, most significant first; the first
argument is recursion fuel (any fuel above the digit count is enough). -/
def natDigits : Nat → Nat → List Char
  | 0, _ => []
  | fuel + 1, n =>
    if n = 0 then [] else natDigits fuel (n / 10) ++ [Char.ofNat (48 + n % 10)]

/-- Decimal string of a natural number. -/
def natToStr (n : Nat) : String :=
  if n = 0 then "0" else String.mk (natDigits (n + 1) n)

/-- Decimal string of an integer, as produced by JavaScript String(n) for
integral n. -/
def intToStr (i : Int) : String :=
  if i < 0 then "-" ++ natToStr i.natAbs else natToStr i.natAbs

/-- JavaScript String(v) on a scalar value. -/
def jsToString : JSValue → String
  | JSValue.str s => s
  | JSValue.num n => intToStr n
  | JSValue.null => "null"

/-- ASCII case folding of one character, as toLowerCase acts on the Basic
Latin range (the only range exercised here). -/
def charLower (c : Char) : Char :=
  if 65 ≤ charCode c ∧ charCode c ≤ 90 then Char.ofNat (charCode c + 32) else c

/-- String toLowerCase, modelled as per-character ASCII folding. -/
def strLower (s : String) : String := String.mk (s.data.map charLower)

/-- Lexicographic code-unit comparison of character lists: the order
Array.prototype.sort applies to strings when called without a
comparator. -/
def strLeAux : List Char → List Char → Bool
  | [], _ => true
  | _ :: _, [] => false
  | a :: as, b :: bs =>
    if charCode a = charCode b then strLeAux as bs
    else decide (charCode a < charCode b)

/-- String comparison by code units, the default sort order of
Array.prototype.sort. -/
def strLe (a b : String) : Bool := strLeAux a.data b.data

/-- The sort order of strings as a decidable relation. -/
def strLeP (a b : String) : Prop := strLe a b = true

instance : DecidableRel strLeP := fun a b => decEq (strLe a b) true

theorem charCode_inj {a b : Char} (h : charCode a = charCode b) : a = b := by
  apply Char.ext
  exact UInt32.toNat.inj h

theorem strLeAux_total (as bs : List Char) :
    strLeAux as bs = true ∨ strLeAux bs as = true := by
  induction as generalizing bs with
  | nil => left; rfl
  | cons a as ih =>
    cases bs with
    | nil => right; rfl
    | cons b bs =>
      by_cases h : charCode a = charCode b
      · rcases ih bs with h1 | h1
        · left; simp [strLeAux, h, h1]
        · right; simp [strLeAux, h.symm, h1]
      · have h2 : ¬ charCode b = charCode a := fun hh => h hh.symm
        rcases Nat.lt_or_ge (charCode a) (charCode b) with hlt | hge
        · left; simp [strLeAux, h, hlt]
        · right
          have : charCode b < charCode a := lt_of_le_of_ne hge h2
          simp [strLeAux, h2, this]

theorem strLeAux_trans (as bs cs : List Char)
    (h1 : strLeAux as bs = true) (h2 : strLeAux bs cs = true) :
    strLeAux as cs = true := by
  induction as generalizing bs cs with
  | nil => rfl
  | cons a as ih =>
    cases bs with
    | nil => simp [strLeAux] at h1
    | cons b bs =>
      cases cs with
      | nil => simp [strLeAux] at h2
      | cons c cs =>
        by_cases hab : charCode a = charCode b
        · by_cases hbc : charCode b = charCode c
          · have hac : charCode a = charCode c := hab.trans hbc
            simp [strLeAux, hab] at h1
            simp [strLeAux, hbc] at h2
            simp [strLeAux, hac]
            exact ih bs cs h1 h2
          · simp [strLeAux, hbc] at h2
            have hac : charCode a < charCode c := hab ▸ h2
            have hne : ¬ charCode a = charCode c := Nat.ne_of_lt hac
            simp [strLeAux, hne, hac]
        · simp [strLeAux, hab] at h1
          by_cases hbc : charCode b = charCode c
          · have hac : charCode a < charCode c := hbc ▸ h1
            have hne : ¬ charCode a = charCode c := Nat.ne_of_lt hac
            simp [strLeAux, hne, hac]
          · simp [strLeAux, hbc] at h2
            have hac : charCode a < charCode c := Nat.lt_trans h1 h2
            have hne : ¬ charCode a = charCode c := Nat.ne_of_lt hac
            simp [strLeAux, hne, hac]

theorem strLeAux_antisymm (as bs : List Char)
    (h1 : strLeAux as bs = true) (h2 : strLeAux bs as = true) : as = bs := by
  induction as generalizing bs with
  | nil =>
    cases bs with
    | nil => rfl
    | cons b bs => simp [strLeAux] at h2
  | cons a as ih =>
    cases bs with
    | nil => simp [strLeAux] at h1
    | cons b bs =>
      by_cases hab : charCode a = charCode b
      · have hba : charCode b = charCode a := hab.symm
        simp [strLeAux, hab] at h1
        simp [strLeAux, hba] at h2
        have := ih bs h1 h2
        rw [charCode_inj hab, this]
      · have hba : ¬ charCode b = charCode a := fun hh => hab hh.symm
        simp [strLeAux, hab] at h1
        simp [strLeAux, hba] at h2
        omega

theorem strLeP_total (a b : String) : strLeP a b ∨ strLeP b a :=
  strLeAux_total a.data b.data

theorem strLeP_trans {a b c : String} (h1 : strLeP a b) (h2 : strLeP b c) :
    strLeP a c :=
  strLeAux_trans a.data b.data c.data h1 h2

theorem strLeP_antisymm {a b : String} (h1 : strLeP a b) (h2 : strLeP b a) :
    a = b := by
  cases a with
  | mk da =>
    cases b with
    | mk db =>
      have : da = db := strLeAux_antisymm da db h1 h2
      rw [this]

instance : IsTotal String strLeP := ⟨strLeP_total⟩
instance : IsTrans String strLeP := ⟨fun _ _ _ => strLeP_trans⟩
instance : IsAntisymm String strLeP := ⟨fun _ _ => strLeP_antisymm⟩

/-
Date model.  Timestamps are integers: milliseconds since the Unix epoch.
The environment is assumed to run in UTC, so the local-time operations
setHours(0,0,0,0) and setHours(23,59,59,999) floor a timestamp to the
start of its UTC day, respectively move it to the last millisecond of
that day.
-/

/-- Milliseconds per day. -/
def msPerDay : Int := 86400000

/-- Start of the day (00:00:00.000) containing a timestamp: the effect of
setHours(0, 0, 0, 0) in a UTC environment. -/
def floorDay (t : Int) : Int := (Int.fdiv t msPerDay) * msPerDay

/-- Last millisecond (23:59:59.999) of the day containing a timestamp:
the effect of setHours(23, 59, 59, 999) in a UTC environment. -/
def lastMsOfDay (t : Int) : Int := floorDay t + (msPerDay - 1)

/-- Whether a year is a Gregorian leap year. -/
def isLeapYear (y : Int) : Bool :=
  (y % 4 = 0 ∧ y % 100 ≠ 0) ∨ y % 400 = 0

/-- Number of days in a month of a given year. -/
def daysInMonth (y m : Int) : Int :=
  if m = 1 then 31
  else if m = 2 then (if isLeapYear y then 29 else 28)
  else if m = 3 then 31
  else if m = 4 then 30
  else if m = 5 then 31
  else if m = 6 then 30
  else if m = 7 then 31
  else if m = 8 then 31
  else if m = 9 then 30
  else if m = 10 then 31
  else if m = 11 then 30
  else 31

/-- Days since 1970-01-01 of a proleptic Gregorian civil date (the
standard days-from-civil computation). -/
def daysFromCivil (y m d : Int) : Int :=
  let yy := if m ≤ 2 then y - 1 else y
  let era := Int.fdiv yy 400
  let yoe := yy - era * 400
  let mp := (m + 9) % 12
  let doy := Int.fdiv (153 * mp + 2) 5 + d - 1
  let doe := yoe * 365 + Int.fdiv yoe 4 - Int.fdiv yoe 100 + doy
  era * 146097 + doe - 719468

/-- Value of a decimal digit character, if it is one. -/
def digitVal : Char → Option Nat :=
  fun c => if 48 ≤ charCode c ∧ charCode c ≤ 57 then some (charCode c - 48) else none

/-- Combine four digit characters into a year number. -/
def fourDigits (a b c d : Char) : Option Nat :=
  match digitVal a, digitVal b, digitVal c, digitVal d with
  | some x, some y, some z, some w => some (1000 * x + 100 * y + 10 * z + w)
  | _, _, _, _ => none

/-- Combine two digit characters into a number. -/
def twoDigits (a b : Char) : Option Nat :=
  match digitVal a, digitVal b with
  | some x, some y => some (10 * x + y)
  | _, _ => none

/-- Timestamp of a valid civil date plus milliseconds within the day. -/
def civilTimestamp (y m d : Nat) (dayMs : Int) : Option Int :=
  if 1 ≤ m ∧ m ≤ 12 ∧ 1 ≤ (d : Int) ∧ (d : Int) ≤ daysInMonth (y : Int) (m : Int) then
    some (daysFromCivil (y : Int) (m : Int) (d : Int) * msPerDay + dayMs)
  else
    none

/-- Date.parse restricted to the formats this application feeds it:
ISO `yyyy-mm-dd` (UTC midnight) and `yyyy-mm-ddThh:mm:ss` (which in a
UTC environment also denotes UTC).  Out-of-range components and every
other shape yield no date, matching the NaN result of Date.parse. -/
def parseISOChars : List Char → Option Int
  | [y1, y2, y3, y4, '-', m1, m2, '-', d1, d2] =>
    match fourDigits y1 y2 y3 y4, twoDigits m1 m2, twoDigits d1 d2 with
    | some y, some m, some d => civilTimestamp y m d 0
    | _, _, _ => none
  | [y1, y2, y3, y4, '-', m1, m2, '-', d1, d2, 'T', h1, h2, ':', mi1, mi2, ':', s1, s2] =>
    match fourDigits y1 y2 y3 y4, twoDigits m1 m2, twoDigits d1 d2,
          twoDigits h1 h2, twoDigits mi1 mi2, twoDigits s1 s2 with
    | some y, some m, some d, some h, some mi, some s =>
      if h ≤ 23 ∧ mi ≤ 59 ∧ s ≤ 59 then
        civilTimestamp y m d ((h : Int) * 3600000 + (mi : Int) * 60000 + (s : Int) * 1000)
      else none
    | _, _, _, _, _, _ => none
  | _ => none

/-- Date.parse on a string, via its character list. -/
def parseDateString (s : String) : Option Int := parseISOChars s.data

/-- toDateValue from the Analytics component: null, undefined and the
empty string give no date; other strings go through Date.parse.  The
instanceof-Date branch of the source is unreachable here because the
data model restricts row scalars to strings and numbers; Date.parse of
a number is modelled as unparsable (none of the application's numeric
cell values are parseable date strings). -/
def toDateValue : Option JSValue → Option Int
  | none => none
  | some JSValue.null => none
  | some (JSValue.str s) => if s = "" then none else parseDateString s
  | some (JSValue.num _) => none

/-- normalizeRangeStart from the Analytics component: an absent or empty
bound is no bound; otherwise parse it and floor to 00:00:00.000 of its
day via setHours(0, 0, 0, 0). -/
def normalizeRangeStart : Option String → Option Int
  | none => none
  | some v =>
    if v = "" then none
    else
      match toDateValue (some (JSValue.str v)) with
      | none => none
      | some t => some (floorDay t)

/-- normalizeRangeEnd from the Analytics component: an absent or empty
bound is no bound; otherwise parse it and move to 23:59:59.999 of its
day via setHours(23, 59, 59, 999). -/
def normalizeRangeEnd : Option String → Option Int
  | none => none
  | some v =>
    if v = "" then none
    else
      match toDateValue (some (JSValue.str v)) with
      | none => none
      | some t => some (lastMsOfDay t)

/-- Column data types used by dashboard filters. -/
inductive FilterDataType where
  | text
  | number
  | date
deriving DecidableEq, Repr

/-- A dashboard filter: column, value (start bound for date filters),
optional end bound, and the column data type.  The id field of the
source carries no filtering semantics and is omitted. -/
structure DashboardFilter where
  column : String
  value : String
  endValue : Option String
  dataType : FilterDataType
deriving DecidableEq, Repr

/-- Whether a lower bound rejects a row date: start && rowDate < start. -/
def belowStart : Option Int → Int → Bool
  | none, _ => false
  | some s, t => decide (t < s)

/-- Whether an upper bound rejects a row date: end && rowDate > end. -/
def aboveEnd : Option Int → Int → Bool
  | none, _ => false
  | some e, t => decide (e < t)

/-- JavaScript String(value ?? ''): null and undefined coerce to the
empty string, every other scalar to its String form. -/
def cellString : Option JSValue → String
  | none => ""
  | some JSValue.null => ""
  | some v => jsToString v

/-- matchesFilterCondition from the Analytics component, translated
branch for branch.  The source's final lines `if (!start && !end)
return true; return true;` both return true and are folded into the
last else. -/
def matchesFilterCondition (row : RawRow) (filter : DashboardFilter) : Bool :=
  if filter.column = "" then true
  else
    let value := lookupRow row filter.column
    if filter.dataType = FilterDataType.date then
      match toDateValue value with
      | none => false
      | some rowDate =>
        let start := normalizeRangeStart (some filter.value)
        let stop := normalizeRangeEnd filter.endValue
        if belowStart start rowDate then false
        else if aboveEnd stop rowDate then false
        else true
    else
      if filter.value = "" then true
      else strLower (cellString value) = strLower filter.value

/-- filteredData from the Analytics component: with no filters the base
data is returned unchanged, otherwise rows must satisfy every filter. -/
def filteredData (baseData : List RawRow) (filters : List DashboardFilter) : List RawRow :=
  if filters.isEmpty then baseData
  else baseData.filter (fun row => filters.all (fun f => matchesFilterCondition row f))

/-- applyWidgetFilters from the Analytics component: absent or empty
widget filter lists return the rows unchanged, otherwise rows must
satisfy every filter. -/
def applyWidgetFilters (rows : List RawRow) (widgetFilters : Option (List DashboardFilter)) : List RawRow :=
  match widgetFilters with
  | none => rows
  | some fs =>
    if fs.isEmpty then rows
    else rows.filter (fun row => fs.all (fun f => matchesFilterCondition row f))

/-- JavaScript String(x || ''): a falsy cell (absent, null, empty string,
zero) coerces to the empty string, a truthy cell to its String form. -/
def coerceCell : Option JSValue → String
  | none => ""
  | some u => if jsTruthy u then jsToString u else ""

/-- First-occurrence deduplication, the order in which a JavaScript Set
collects elements: every element keeps its first position and later
duplicates are dropped. -/
def dedupFirst : List String → List String
  | [] => []
  | x :: xs => x :: (dedupFirst xs).filter (fun y => y ≠ x)

/-- getUniqueValues from the Analytics component:
new Set(baseData.map(row => String(row[col] || ''))), then
Array.from(unique).filter(Boolean).sort().slice(0, 100). -/
def getUniqueValues (baseData : List RawRow) (col : String) : List String :=
  let mapped := baseData.map (fun row => coerceCell (lookupRow row col))
  (List.insertionSort strLeP ((dedupFirst mapped).filter (fun s => s ≠ ""))).take 100

/-- An aggregated chart entry: group name plus the measure value under
the relevant value key.  Aggregated values are modelled as integers. -/
structure Entry where
  name : String
  value : Int
deriving DecidableEq, Repr

/-- The five sort orders offered by the ChartBuilder. -/
inductive SortOrder where
  | valueDesc
  | valueAsc
  | nameAsc
  | nameDesc
  | original
deriving DecidableEq, Repr

/-- Order induced by the comparator (a, b) => (b[valueKey] || 0) - (a[valueKey] || 0):
larger values first. -/
def valueDescRel (a b : Entry) : Prop := b.value ≤ a.value

/-- Order induced by the comparator (a, b) => (a[valueKey] || 0) - (b[valueKey] || 0):
smaller values first. -/
def valueAscRel (a b : Entry) : Prop := a.value ≤ b.value

/-- Order induced by String(a.name).localeCompare(String(b.name)),
modelled as code-unit comparison of the names. -/
def nameAscRel (a b : Entry) : Prop := strLeP a.name b.name

/-- Order induced by String(b.name).localeCompare(String(a.name)). -/
def nameDescRel (a b : Entry) : Prop := strLeP b.name a.name

instance : DecidableRel valueDescRel :=
  fun a b => inferInstanceAs (Decidable (b.value ≤ a.value))

instance : DecidableRel valueAscRel :=
  fun a b => inferInstanceAs (Decidable (a.value ≤ b.value))

instance : DecidableRel nameAscRel :=
  fun a b => inferInstanceAs (Decidable (strLeP a.name b.name))

instance : DecidableRel nameDescRel :=
  fun a b => inferInstanceAs (Decidable (strLeP b.name a.name))

instance : IsTotal Entry valueDescRel := ⟨fun a b => le_total b.value a.value⟩

instance : IsTrans Entry valueDescRel :=
  ⟨fun _ _ _ h1 h2 => le_trans h2 h1⟩

instance : IsTotal Entry valueAscRel := ⟨fun a b => le_total a.value b.value⟩

instance : IsTrans Entry valueAscRel :=
  ⟨fun _ _ _ h1 h2 => le_trans h1 h2⟩

instance : IsTotal Entry nameAscRel := ⟨fun a b => strLeP_total a.name b.name⟩

instance : IsTrans Entry nameAscRel :=
  ⟨fun _ _ _ h1 h2 => strLeP_trans h1 h2⟩

instance : IsTotal Entry nameDescRel := ⟨fun a b => strLeP_total b.name a.name⟩

instance : IsTrans Entry nameDescRel :=
  ⟨fun _ _ _ h1 h2 => strLeP_trans h2 h1⟩

/-- applySorting from the ChartBuilder component, translated case for
case.  JavaScript [...data].sort(comparator) is a comparison sort; it is
modelled by insertion sort under the order each comparator induces, and
the original case returns the data unchanged. -/
def applySorting (data : List Entry) (order : SortOrder) : List Entry :=
  match order with
  | SortOrder.valueDesc => List.insertionSort valueDescRel data
  | SortOrder.valueAsc => List.insertionSort valueAscRel data
  | SortOrder.nameAsc => List.insertionSort nameAscRel data
  | SortOrder.nameDesc => List.insertionSort nameDescRel data
  | SortOrder.original => data

/-
Chunk store.  The storage engine (utils/storage-v2.ts) is not among the
sources of this repository snapshot; only its documentation and callers
are.  The definitions below are therefore modelled from the spec.
-/

/-- Ceiling division on naturals. -/
def ceilDiv (a b : Nat) : Nat := (a + b - 1) / b

/-- Modelled from the spec: partitioning rows into consecutive groups of
the chunk size (only the final group may be shorter), the layout
batchInsert writes. -/
def chunkList (n : Nat) : List RawRow → List (List RawRow)
  | [] => []
  | x :: xs => (x :: xs.take (n - 1)) :: chunkList n (xs.drop (n - 1))
termination_by l => l.length
decreasing_by
  simp only [List.length_drop, List.length_cons]
  omega

/-- Modelled from the spec: a dataset of the chunk store, with its
metadata counters (rowCount, chunkCount, chunkSize) and stored chunks. -/
structure DatasetState where
  chunkSize : Nat
  chunks : List (List RawRow)
  rowCount : Nat
  chunkCount : Nat
deriving Repr

/-- Modelled from the spec: a dataset created empty (rowCount = 0,
chunkCount = 0). -/
def emptyDataset (n : Nat) : DatasetState :=
  { chunkSize := n, chunks := [], rowCount := 0, chunkCount := 0 }

/-- Modelled from the spec: batchInsert (batchInsertData in
utils/storage-v2.ts, absent from the sources) populates the dataset with
the given rows partitioned into consecutive chunkSize groups, then
updates rowCount and chunkCount to match. -/
def batchInsert (s : DatasetState) (rows : List RawRow) : DatasetState :=
  let chunks := chunkList s.chunkSize rows
  { chunkSize := s.chunkSize
    chunks := chunks
    rowCount := rows.length
    chunkCount := chunks.length }

/-- Modelled from the spec: append fills the spare capacity of the final
existing chunk first; remaining rows form new full chunks plus at most
one final partial chunk. -/
def appendChunks (n : Nat) (chunks : List (List RawRow)) (rows : List RawRow) : List (List RawRow) :=
  match chunks with
  | [] => chunkList n rows
  | c :: cs =>
    match cs with
    | [] =>
      let spare := n - c.length
      (c ++ rows.take spare) :: chunkList n (rows.drop spare)
    | c2 :: cs2 => c :: appendChunks n (c2 :: cs2) rows

/-- Modelled from the spec: append (appendData in utils/storage-v2.ts,
absent from the sources) extends the chunk layout with the new rows and
updates rowCount and chunkCount to match. -/
def appendRows (s : DatasetState) (rows : List RawRow) : DatasetState :=
  let chunks := appendChunks s.chunkSize s.chunks rows
  { chunkSize := s.chunkSize
    chunks := chunks
    rowCount := s.rowCount + rows.length
    chunkCount := chunks.length }

/-- A mutating chunk-store call. -/
inductive StoreOp where
  | insertOp (rows : List RawRow)
  | appendOp (rows : List RawRow)

/-- Apply one mutating call to a dataset. -/
def applyOp (s : DatasetState) : StoreOp → DatasetState
  | StoreOp.insertOp rows => batchInsert s rows
  | StoreOp.appendOp rows => appendRows s rows

/-- A dataset after a sequence of batchInsert and append calls, starting
from the empty dataset of a given chunk size. -/
def runOps (n : Nat) (ops : List StoreOp) : DatasetState :=
  ops.foldl applyOp (emptyDataset n)

/-- Modelled from the spec: the top-N collapsing step of aggregateData
(utils/aggregation.ts, absent from the sources).  Ranking is by the
group total, descending; with more groups than the limit, the first N
stay and the rest collapse into one synthetic Others entry holding the
sum of the excluded values. -/
def applyTopN (entries : List Entry) (n : Nat) : List Entry :=
  if entries.length ≤ n then entries
  else
    let ranked := applySorting entries SortOrder.valueDesc
    ranked.take n ++ [{ name := "Others", value := ((ranked.drop n).map Entry.value).sum }]

/-
Supporting lemmas.
-/

theorem natDigits_ne_nil (fuel n : Nat) (hf : 1 ≤ fuel) (hn : n ≠ 0) :
    natDigits fuel n ≠ [] := by
  cases fuel with
  | zero => omega
  | succ fuel =>
    simp only [natDigits, hn, if_false]
    exact List.append_ne_nil_of_right_ne_nil _ (by simp)

theorem natToStr_ne_empty (n : Nat) : natToStr n ≠ "" := by
  by_cases hn : n = 0
  · subst hn; simp [natToStr]
  · simp only [natToStr, hn, if_false]
    intro h
    exact natDigits_ne_nil (n + 1) n (by omega) hn (congrArg String.data h)

theorem intToStr_ne_empty (i : Int) : intToStr i ≠ "" := by
  by_cases hi : i < 0
  · simp only [intToStr, hi, if_true]
    intro h
    have := congrArg String.data h
    simp [String.data_append] at this
  · simp only [intToStr, hi, if_false]
    exact natToStr_ne_empty i.natAbs

theorem jsToString_ne_empty_of_truthy (v : JSValue) (hv : jsTruthy v = true) :
    jsToString v ≠ "" := by
  cases v with
  | str s => simpa [jsTruthy] using hv
  | num n => exact intToStr_ne_empty n
  | null => simp [jsTruthy] at hv

/-- Membership in the deduplicated list implies membership in the
original list. -/
theorem mem_dedupFirst {a : String} : ∀ {l : List String}, a ∈ dedupFirst l → a ∈ l
  | [], h => h
  | x :: xs, h => by
    rcases List.mem_cons.mp h with h1 | h1
    · exact h1 ▸ List.mem_cons_self x xs
    · exact List.mem_cons_of_mem x (mem_dedupFirst (List.mem_of_mem_filter h1))

/-- Deduplication commutes with filtering: dropping elements failing a
predicate before or after removing duplicates gives the same list. -/
theorem dedupFirst_filter (p : String → Bool) (l : List String) :
    (dedupFirst l).filter p = dedupFirst (l.filter p) := by
  induction l with
  | nil => simp [dedupFirst]
  | cons x xs ih =>
    by_cases hp : p x = true
    · simp only [dedupFirst, List.filter_cons, hp, if_true]
      rw [List.filter_comm, ih]
    · have hp2 : p x = false := by
        cases h : p x
        · rfl
        · exact absurd h hp
      simp only [dedupFirst, List.filter_cons, hp2, Bool.false_eq_true, if_false]
      rw [List.filter_comm, ih]
      apply List.filter_eq_self.mpr
      intro a ha
      have hpa : p a = true := (List.mem_filter.mp (mem_dedupFirst ha)).2
      have hax : a ≠ x := by
        intro hh
        rw [hh, hp2] at hpa
        cases hpa
      simp [hax]

/-
Claim theorems: filter semantics.
-/

/-- C4: for every row and every categorical (non-date) filter with a
non-empty value, the row passes exactly when the string representation
of the row's value for the filter column equals the filter value under
case-insensitive comparison. -/
theorem categorical_filter_is_case_insensitive_match (row : RawRow) (f : DashboardFilter)
    (hdt : f.dataType ≠ FilterDataType.date) (hcol : f.column ≠ "") (hv : f.value ≠ "") :
    matchesFilterCondition row f = true
      ↔ strLower (cellString (lookupRow row f.column)) = strLower f.value := by
  simp [matchesFilterCondition, hdt, hcol, hv]

theorem categorical_filter_is_case_insensitive_match_witness :
    (FilterDataType.text ≠ FilterDataType.date ∧ "channel" ≠ "" ∧ "FB" ≠ "") ∧
      matchesFilterCondition [("channel", JSValue.str "fb")]
          { column := "channel", value := "FB", endValue := none, dataType := FilterDataType.text } = true :=
  ⟨⟨by decide, by decide, by decide⟩,
    (categorical_filter_is_case_insensitive_match
      [("channel", JSValue.str "fb")]
      { column := "channel", value := "FB", endValue := none, dataType := FilterDataType.text }
      (by decide) (by decide) (by decide)).mpr (by decide)⟩

/-- C5: filtering with an empty filter list returns the rows unchanged
(the same as no filtering), and with filters present a row is kept
exactly when it satisfies every filter, with AND semantics; the widget
filter path agrees. -/
theorem empty_filters_identity_and_conjunction (rows : List RawRow) (fs : List DashboardFilter) :
    filteredData rows [] = rows ∧
    filteredData rows fs = rows.filter (fun row => fs.all (fun f => matchesFilterCondition row f)) ∧
    applyWidgetFilters rows none = rows ∧
    applyWidgetFilters rows (some fs) = filteredData rows fs ∧
    (∀ row, row ∈ filteredData rows fs
      ↔ row ∈ rows ∧ ∀ f ∈ fs, matchesFilterCondition row f = true) := by
  have hfil : filteredData rows fs
      = rows.filter (fun row => fs.all (fun f => matchesFilterCondition row f)) := by
    cases fs with
    | nil => simp [filteredData]
    | cons f fs => simp [filteredData]
  refine ⟨by simp [filteredData], hfil, rfl, rfl, ?_⟩
  intro row
  rw [hfil]
  simp [List.mem_filter, List.all_eq_true]

/-- C8: a date filter always excludes rows whose value does not parse as
a date, even with no bounds set, and with both bounds absent it accepts
exactly the rows whose value parses. -/
theorem date_filter_requires_parsable (row : RawRow) (f : DashboardFilter)
    (hdt : f.dataType = FilterDataType.date) (hcol : f.column ≠ "")
    (hv : f.value = "") (he : f.endValue = none ∨ f.endValue = some "") :
    matchesFilterCondition row f = (toDateValue (lookupRow row f.column)).isSome := by
  have hstart : normalizeRangeStart (some f.value) = none := by
    rw [hv]; rfl
  have hstop : normalizeRangeEnd f.endValue = none := by
    rcases he with he | he <;> rw [he] <;> rfl
  cases htd : toDateValue (lookupRow row f.column) with
  | none => simp [matchesFilterCondition, hcol, hdt, htd]
  | some t => simp [matchesFilterCondition, hcol, hdt, htd, hstart, hstop, belowStart, aboveEnd]

theorem date_filter_requires_parsable_witness :
    (FilterDataType.date = FilterDataType.date ∧ "joined" ≠ "" ∧ ("" : String) = "" ∧
      ((none : Option String) = none ∨ (none : Option String) = some "")) ∧
    matchesFilterCondition [("joined", JSValue.str "not a date")]
        { column := "joined", value := "", endValue := none, dataType := FilterDataType.date }
      = (toDateValue (lookupRow [("joined", JSValue.str "not a date")] "joined")).isSome :=
  ⟨⟨rfl, by decide, rfl, Or.inl rfl⟩,
    date_filter_requires_parsable [("joined", JSValue.str "not a date")]
      { column := "joined", value := "", endValue := none, dataType := FilterDataType.date }
      rfl (by decide) rfl (Or.inl rfl)⟩

/-- C9: a non-date filter with an empty value accepts every row, and a
filter with an empty column name accepts every row regardless of its
type. -/
theorem empty_value_or_column_accepts (row : RawRow) (f : DashboardFilter) :
    (f.dataType ≠ FilterDataType.date → f.value = "" → matchesFilterCondition row f = true) ∧
    (f.column = "" → matchesFilterCondition row f = true) := by
  constructor
  · intro hdt hv
    by_cases hc : f.column = ""
    · simp [matchesFilterCondition, hc]
    · simp [matchesFilterCondition, hc, hdt, hv]
  · intro hc
    simp [matchesFilterCondition, hc]

theorem empty_value_or_column_accepts_witness :
    matchesFilterCondition [("channel", JSValue.str "fb")]
        { column := "channel", value := "", endValue := none, dataType := FilterDataType.text } = true ∧
    matchesFilterCondition [("channel", JSValue.str "fb")]
        { column := "", value := "zzz", endValue := none, dataType := FilterDataType.date } = true :=
  ⟨(empty_value_or_column_accepts [("channel", JSValue.str "fb")]
      { column := "channel", value := "", endValue := none, dataType := FilterDataType.text }).1
      (by decide) rfl,
    (empty_value_or_column_accepts [("channel", JSValue.str "fb")]
      { column := "", value := "zzz", endValue := none, dataType := FilterDataType.date }).2 rfl⟩

/-
Claim theorems: sorting.
-/

/-- C7: the finalization sort supports exactly the five requested orders;
each of the four comparator orders returns a permutation of the entries
sorted by its order, and the original order returns the input
unchanged. -/
theorem applySorting_five_orders (l : List Entry) :
    ((applySorting l SortOrder.valueDesc).Perm l
      ∧ List.Sorted valueDescRel (applySorting l SortOrder.valueDesc)) ∧
    ((applySorting l SortOrder.valueAsc).Perm l
      ∧ List.Sorted valueAscRel (applySorting l SortOrder.valueAsc)) ∧
    ((applySorting l SortOrder.nameAsc).Perm l
      ∧ List.Sorted nameAscRel (applySorting l SortOrder.nameAsc)) ∧
    ((applySorting l SortOrder.nameDesc).Perm l
      ∧ List.Sorted nameDescRel (applySorting l SortOrder.nameDesc)) ∧
    applySorting l SortOrder.original = l :=
  ⟨⟨List.perm_insertionSort valueDescRel l, List.sorted_insertionSort valueDescRel l⟩,
    ⟨List.perm_insertionSort valueAscRel l, List.sorted_insertionSort valueAscRel l⟩,
    ⟨List.perm_insertionSort nameAscRel l, List.sorted_insertionSort nameAscRel l⟩,
    ⟨List.perm_insertionSort nameDescRel l, List.sorted_insertionSort nameDescRel l⟩,
    rfl⟩

/-- A present start bound is always the first millisecond of its day. -/
theorem normalizeRangeStart_mod (v : Option String) (s : Int)
    (h : normalizeRangeStart v = some s) : s % msPerDay = 0 := by
  cases v with
  | none => simp [normalizeRangeStart] at h
  | some str =>
    by_cases hstr : str = ""
    · simp [normalizeRangeStart, hstr] at h
    · simp only [normalizeRangeStart, hstr, if_false] at h
      cases ht : toDateValue (some (JSValue.str str)) with
      | none => rw [ht] at h; cases h
      | some t =>
        rw [ht] at h
        have hs : s = Int.fdiv t msPerDay * msPerDay := by
          have := (Option.some.inj h).symm
          simpa [floorDay] using this
        rw [hs]
        exact Int.mul_emod_left _ _

/-- A present end bound is always the last millisecond of its day. -/
theorem normalizeRangeEnd_mod (v : Option String) (e : Int)
    (h : normalizeRangeEnd v = some e) : e % msPerDay = msPerDay - 1 := by
  cases v with
  | none => simp [normalizeRangeEnd] at h
  | some str =>
    by_cases hstr : str = ""
    · simp [normalizeRangeEnd, hstr] at h
    · simp only [normalizeRangeEnd, hstr, if_false] at h
      cases ht : toDateValue (some (JSValue.str str)) with
      | none => rw [ht] at h; cases h
      | some t =>
        rw [ht] at h
        have he : e = Int.fdiv t msPerDay * msPerDay + (msPerDay - 1) := by
          have := (Option.some.inj h).symm
          simpa [lastMsOfDay, floorDay] using this
        have hq : e = Int.fdiv t msPerDay * 86400000 + 86399999 := by
          simpa [msPerDay] using he
        simp only [msPerDay]
        omega

/-- C3: a date-range filter normalizes a present start bound to time
00:00:00.000 of its day and a present end bound to 23:59:59.999 of its
day, and excludes a row exactly when its value does not parse as a date
or parses to a date outside the interval delimited by the present
bounds. -/
theorem date_range_filter_semantics (row : RawRow) (f : DashboardFilter)
    (hdt : f.dataType = FilterDataType.date) (hcol : f.column ≠ "") :
    (∀ s, normalizeRangeStart (some f.value) = some s → s % msPerDay = 0) ∧
    (∀ e, normalizeRangeEnd f.endValue = some e → e % msPerDay = msPerDay - 1) ∧
    (matchesFilterCondition row f = true ↔
      ∃ t, toDateValue (lookupRow row f.column) = some t ∧
        (∀ s, normalizeRangeStart (some f.value) = some s → s ≤ t) ∧
        (∀ e, normalizeRangeEnd f.endValue = some e → t ≤ e)) := by
  refine ⟨fun s hs => normalizeRangeStart_mod _ s hs,
    fun e he => normalizeRangeEnd_mod _ e he, ?_⟩
  cases htd : toDateValue (lookupRow row f.column) with
  | none => simp [matchesFilterCondition, hcol, hdt, htd]
  | some t =>
    cases hs : normalizeRangeStart (some f.value) with
    | none =>
      cases he : normalizeRangeEnd f.endValue with
      | none =>
        simp [matchesFilterCondition, hcol, hdt, htd, hs, he, belowStart, aboveEnd]
      | some e =>
        simp [matchesFilterCondition, hcol, hdt, htd, hs, he, belowStart, aboveEnd, not_lt]
    | some s =>
      cases he : normalizeRangeEnd f.endValue with
      | none =>
        simp [matchesFilterCondition, hcol, hdt, htd, hs, he, belowStart, aboveEnd, not_lt]
      | some e =>
        simp [matchesFilterCondition, hcol, hdt, htd, hs, he, belowStart, aboveEnd, not_lt]

theorem date_range_filter_semantics_witness :
    (FilterDataType.date = FilterDataType.date ∧ "d" ≠ "") ∧
    (matchesFilterCondition [("d", JSValue.str "2024-01-15")]
        { column := "d", value := "2024-01-01", endValue := some "2024-01-31",
          dataType := FilterDataType.date } = true ↔
      ∃ t, toDateValue (lookupRow [("d", JSValue.str "2024-01-15")] "d") = some t ∧
        (∀ s, normalizeRangeStart (some "2024-01-01") = some s → s ≤ t) ∧
        (∀ e, normalizeRangeEnd (some "2024-01-31") = some e → t ≤ e)) :=
  ⟨⟨rfl, by decide⟩,
    (date_range_filter_semantics [("d", JSValue.str "2024-01-15")]
      { column := "d", value := "2024-01-01", endValue := some "2024-01-31",
        dataType := FilterDataType.date } rfl (by decide)).2.2⟩

/-
Claim theorems: unique values.
-/

/-- C10: getUniqueValues never returns the empty string, and a row whose
value for the column is missing, null, or the empty string contributes
no entry. -/
theorem getUniqueValues_skips_blank (rows : List RawRow) (row : RawRow) (col : String)
    (h : lookupRow row col = none ∨ lookupRow row col = some JSValue.null
      ∨ lookupRow row col = some (JSValue.str "")) :
    "" ∉ getUniqueValues rows col ∧
    getUniqueValues (row :: rows) col = getUniqueValues rows col := by
  constructor
  · intro hmem
    have h1 : "" ∈ List.insertionSort strLeP
        ((dedupFirst (rows.map (fun r => coerceCell (lookupRow r col)))).filter
          (fun s => s ≠ "")) :=
      List.take_subset 100 _ hmem
    have h2 := ((List.perm_insertionSort strLeP _).mem_iff).mp h1
    have h3 := (List.mem_filter.mp h2).2
    simp at h3
  · have hc : coerceCell (lookupRow row col) = "" := by
      rcases h with h | h | h <;> rw [h] <;> rfl
    have hX : ((dedupFirst (rows.map (fun r => coerceCell (lookupRow r col)))).filter
          (fun s => s ≠ "")).filter (fun s => s ≠ "")
        = (dedupFirst (rows.map (fun r => coerceCell (lookupRow r col)))).filter
          (fun s => s ≠ "") :=
      List.filter_eq_self.mpr (fun a ha => (List.mem_filter.mp ha).2)
    simp only [getUniqueValues]
    rw [List.map_cons, hc, dedupFirst, List.filter_cons, if_neg (by decide), hX]

theorem getUniqueValues_skips_blank_witness :
    (lookupRow [("x", JSValue.num 1)] "c" = none ∨
      lookupRow [("x", JSValue.num 1)] "c" = some JSValue.null ∨
      lookupRow [("x", JSValue.num 1)] "c" = some (JSValue.str "")) ∧
    ("" ∉ getUniqueValues [[("c", JSValue.str "a")]] "c" ∧
      getUniqueValues ([("x", JSValue.num 1)] :: [[("c", JSValue.str "a")]]) "c"
        = getUniqueValues [[("c", JSValue.str "a")]] "c") :=
  ⟨Or.inl (by decide),
    getUniqueValues_skips_blank [[("c", JSValue.str "a")]] [("x", JSValue.num 1)] "c"
      (Or.inl (by decide))⟩

/-- The behaviour the unique-values claim describes: the distinct string
representations of the column's values (wherever the column is present),
sorted ascending, capped at 100 entries. -/
def claimedUniqueValues (baseData : List RawRow) (col : String) : List String :=
  let reps := baseData.filterMap (fun row => (lookupRow row col).map jsToString)
  (List.insertionSort strLeP (dedupFirst reps)).take 100

/-- String representation of a cell when the cell is truthy; falsy cells
(absent, null, empty string, zero) produce nothing. -/
def truthyCellString : Option JSValue → Option String
  | none => none
  | some v => if jsTruthy v then some (jsToString v) else none

/-- The unique-values behaviour after amendment: the distinct string
representations of the column's truthy values, sorted ascending, capped
at 100 entries. -/
def amendedUniqueValues (baseData : List RawRow) (col : String) : List String :=
  let reps := baseData.filterMap (fun row => truthyCellString (lookupRow row col))
  (List.insertionSort strLeP (dedupFirst reps)).take 100

/-- C6 counterexample: a column holding the number 0 yields no unique
value at all, although the claimed behaviour would return its string
representation. -/
theorem getUniqueValues_drops_zero_value :
    getUniqueValues [[("c", JSValue.num 0)]] "c" = [] ∧
    claimedUniqueValues [[("c", JSValue.num 0)]] "c" = ["0"] := by decide

/-- Coercing every cell and dropping the empty results is the same as
keeping the string forms of the truthy cells. -/
theorem coerce_filter_eq_truthy (rows : List RawRow) (col : String) :
    (rows.map (fun r => coerceCell (lookupRow r col))).filter (fun s => s ≠ "")
      = rows.filterMap (fun r => truthyCellString (lookupRow r col)) := by
  induction rows with
  | nil => rfl
  | cons r rows ih =>
    cases hv : lookupRow r col with
    | none =>
      have h1 : coerceCell (lookupRow r col) = "" := by rw [hv]; rfl
      have h2 : truthyCellString (lookupRow r col) = none := by rw [hv]; rfl
      rw [List.map_cons, h1, List.filter_cons, if_neg (by decide),
        List.filterMap_cons, h2, ih]
    | some v =>
      cases ht : jsTruthy v with
      | false =>
        have h1 : coerceCell (lookupRow r col) = "" := by
          rw [hv]; simp [coerceCell, ht]
        have h2 : truthyCellString (lookupRow r col) = none := by
          rw [hv]; simp [truthyCellString, ht]
        rw [List.map_cons, h1, List.filter_cons, if_neg (by decide),
          List.filterMap_cons, h2, ih]
      | true =>
        have hne : jsToString v ≠ "" := jsToString_ne_empty_of_truthy v ht
        have h1 : coerceCell (lookupRow r col) = jsToString v := by
          rw [hv]; simp [coerceCell, ht]
        have h2 : truthyCellString (lookupRow r col) = some (jsToString v) := by
          rw [hv]; simp [truthyCellString, ht]
        rw [List.map_cons, h1, List.filter_cons, if_pos (by simp [hne]),
          List.filterMap_cons, h2, ih]

/-- C6 (amended): getUniqueValues returns the distinct string
representations of the column's truthy values, sorted ascending, capped
at 100 entries; falsy values (missing, null, the empty string, the
number 0) contribute no entry. -/
theorem getUniqueValues_amended (rows : List RawRow) (col : String) :
    getUniqueValues rows col = amendedUniqueValues rows col := by
  simp only [getUniqueValues, amendedUniqueValues]
  rw [dedupFirst_filter, coerce_filter_eq_truthy]

/-
Claim theorems: top-N collapsing.
-/

/-- C2: with a top-N limit over more groups than the limit, the result
has exactly N + 1 entries, the last being a synthetic Others entry whose
value is the total of all groups minus the sum of the N returned group
values. -/
theorem topN_collapses_into_others (entries : List Entry) (n : Nat)
    (h : n < entries.length) :
    (applyTopN entries n).length = n + 1 ∧
    ∃ top other, applyTopN entries n = top ++ [other] ∧ top.length = n ∧
      other.name = "Others" ∧
      other.value = (entries.map Entry.value).sum - (top.map Entry.value).sum := by
  have hnot : ¬ entries.length ≤ n := by omega
  have hperm : (applySorting entries SortOrder.valueDesc).Perm entries :=
    List.perm_insertionSort valueDescRel entries
  have hlen : (applySorting entries SortOrder.valueDesc).length = entries.length :=
    hperm.length_eq
  have htake : ((applySorting entries SortOrder.valueDesc).take n).length = n := by
    rw [List.length_take]
    omega
  have hsum : ((applySorting entries SortOrder.valueDesc).map Entry.value).sum
      = (entries.map Entry.value).sum :=
    (hperm.map Entry.value).sum_eq
  have hsplit : (((applySorting entries SortOrder.valueDesc).take n).map Entry.value).sum
        + (((applySorting entries SortOrder.valueDesc).drop n).map Entry.value).sum
      = (entries.map Entry.value).sum := by
    rw [← hsum]
    rw [← List.sum_append, ← List.map_append, List.take_append_drop]
  have happ : applyTopN entries n
      = (applySorting entries SortOrder.valueDesc).take n
        ++ [{ name := "Others",
              value := (((applySorting entries SortOrder.valueDesc).drop n).map Entry.value).sum }] := by
    simp only [applyTopN]
    rw [if_neg hnot]
  constructor
  · rw [happ, List.length_append, htake]
    rfl
  · refine ⟨(applySorting entries SortOrder.valueDesc).take n,
      { name := "Others",
        value := (((applySorting entries SortOrder.valueDesc).drop n).map Entry.value).sum },
      happ, htake, rfl, ?_⟩
    simp only
    omega

theorem topN_collapses_into_others_witness :
    2 < ([⟨"a", 10⟩, ⟨"b", 5⟩, ⟨"c", 3⟩, ⟨"d", 1⟩] : List Entry).length ∧
    ((applyTopN [⟨"a", 10⟩, ⟨"b", 5⟩, ⟨"c", 3⟩, ⟨"d", 1⟩] 2).length = 2 + 1 ∧
      ∃ top other, applyTopN [⟨"a", 10⟩, ⟨"b", 5⟩, ⟨"c", 3⟩, ⟨"d", 1⟩] 2 = top ++ [other] ∧
        top.length = 2 ∧ other.name = "Others" ∧
        other.value = (([⟨"a", 10⟩, ⟨"b", 5⟩, ⟨"c", 3⟩, ⟨"d", 1⟩] : List Entry).map Entry.value).sum
          - ((top.map Entry.value).sum)) :=
  ⟨by decide, topN_collapses_into_others [⟨"a", 10⟩, ⟨"b", 5⟩, ⟨"c", 3⟩, ⟨"d", 1⟩] 2 (by decide)⟩

/-
Claim theorems: chunk store invariant.
-/

theorem ceilDiv_of_zero (b : Nat) : ceilDiv 0 b = 0 := by
  cases b with
  | zero => rfl
  | succ b =>
    simp only [ceilDiv]
    exact Nat.div_eq_of_lt (by omega)

theorem ceilDiv_add_self (a b : Nat) (hb : 1 ≤ b) :
    ceilDiv (a + b) b = ceilDiv a b + 1 := by
  simp only [ceilDiv]
  have h1 : a + b + b - 1 = (a + b - 1) + b := by omega
  rw [h1, Nat.add_div_right _ (by omega)]

theorem ceilDiv_step (b : Nat) (hb : 1 ≤ b) (m : Nat) (hm : 1 ≤ m) :
    ceilDiv m b = ceilDiv (m - b) b + 1 := by
  rcases Nat.le_total m b with hle | hle
  · have h0 : m - b = 0 := by omega
    rw [h0, ceilDiv_of_zero]
    simp only [ceilDiv, Nat.zero_add]
    exact Nat.div_eq_of_lt_le (by omega) (by omega)
  · have h1 : m = (m - b) + b := by omega
    conv_lhs => rw [h1]
    rw [ceilDiv_add_self _ _ hb]

theorem chunkList_sum (n : Nat) (l : List RawRow) :
    ((chunkList n l).map List.length).sum = l.length := by
  induction l using chunkList.induct n with
  | case1 => simp [chunkList]
  | case2 x xs ih =>
    simp only [chunkList, List.map_cons, List.sum_cons, ih]
    simp only [List.length_cons, List.length_take, List.length_drop]
    omega

theorem chunkList_length (n : Nat) (hn : 1 ≤ n) (l : List RawRow) :
    (chunkList n l).length = ceilDiv l.length n := by
  induction l using chunkList.induct n with
  | case1 => simp [chunkList, ceilDiv_of_zero]
  | case2 x xs ih =>
    simp only [chunkList, List.length_cons, ih, List.length_drop]
    rw [ceilDiv_step n hn (xs.length + 1) (by omega)]
    congr 1
    congr 1
    omega

theorem chunkList_bounds (n : Nat) (hn : 1 ≤ n) (l : List RawRow) :
    ∀ c ∈ chunkList n l, 1 ≤ c.length ∧ c.length ≤ n := by
  induction l using chunkList.induct n with
  | case1 => simp [chunkList]
  | case2 x xs ih =>
    intro c hc
    rw [chunkList] at hc
    rcases List.mem_cons.mp hc with hc | hc
    · subst hc
      simp only [List.length_cons, List.length_take]
      omega
    · exact ih c hc

theorem chunkList_nil_iff (n : Nat) (l : List RawRow) :
    chunkList n l = [] ↔ l = [] := by
  cases l with
  | nil => simp [chunkList]
  | cons x xs => simp [chunkList]

theorem chunkList_dropLast_full (n : Nat) (hn : 1 ≤ n) (l : List RawRow) :
    ∀ c ∈ (chunkList n l).dropLast, c.length = n := by
  induction l using chunkList.induct n with
  | case1 => simp [chunkList]
  | case2 x xs ih =>
    intro c hc
    rw [chunkList] at hc
    cases hrest : chunkList n (xs.drop (n - 1)) with
    | nil => rw [hrest] at hc; simp at hc
    | cons r rs =>
      rw [hrest] at hc
      rw [List.dropLast_cons₂] at hc
      rcases List.mem_cons.mp hc with hc | hc
      · subst hc
        have hne : xs.drop (n - 1) ≠ [] := by
          intro hdrop
          rw [hdrop] at hrest
          simp [chunkList] at hrest
        have hlen : n - 1 < xs.length := by
          by_contra hcon
          exact hne (List.drop_eq_nil_of_le (by omega))
        simp only [List.length_cons, List.length_take]
        omega
      · rw [← hrest] at hc
        exact ih c hc

/-- The consistency invariant of a chunked dataset: the metadata counters
match the stored chunks, chunkCount is the ceiling of rowCount over
chunkSize, every chunk before the last is full, and every chunk is
nonempty and within capacity. -/
def DatasetInv (s : DatasetState) : Prop :=
  1 ≤ s.chunkSize ∧
  s.rowCount = ((s.chunks.map List.length).sum) ∧
  s.chunkCount = s.chunks.length ∧
  s.chunkCount = ceilDiv s.rowCount s.chunkSize ∧
  (∀ c ∈ s.chunks.dropLast, c.length = s.chunkSize) ∧
  (∀ c ∈ s.chunks, 1 ≤ c.length ∧ c.length ≤ s.chunkSize)

theorem emptyDataset_inv (n : Nat) (hn : 1 ≤ n) : DatasetInv (emptyDataset n) := by
  refine ⟨hn, rfl, rfl, ?_, ?_, ?_⟩
  · simp [emptyDataset, ceilDiv_of_zero]
  · simp [emptyDataset]
  · simp [emptyDataset]

theorem batchInsert_inv (s : DatasetState) (rows : List RawRow)
    (hn : 1 ≤ s.chunkSize) : DatasetInv (batchInsert s rows) := by
  refine ⟨hn, ?_, rfl, ?_, ?_, ?_⟩
  · exact (chunkList_sum s.chunkSize rows).symm
  · simp only [batchInsert]
    rw [chunkList_length s.chunkSize hn rows]
  · exact chunkList_dropLast_full s.chunkSize hn rows
  · exact chunkList_bounds s.chunkSize hn rows

theorem appendChunks_cons_ne_nil (n : Nat) (c : List RawRow) (cs : List (List RawRow))
    (rows : List RawRow) : appendChunks n (c :: cs) rows ≠ [] := by
  cases cs with
  | nil => simp [appendChunks]
  | cons c2 cs2 => simp [appendChunks]

theorem appendChunks_spec (n : Nat) (hn : 1 ≤ n) :
    ∀ (chunks : List (List RawRow)) (rows : List RawRow),
      (∀ c ∈ chunks.dropLast, c.length = n) →
      (∀ c ∈ chunks, 1 ≤ c.length ∧ c.length ≤ n) →
      ((appendChunks n chunks rows).map List.length).sum
          = (chunks.map List.length).sum + rows.length ∧
      (∀ c ∈ (appendChunks n chunks rows).dropLast, c.length = n) ∧
      (∀ c ∈ appendChunks n chunks rows, 1 ≤ c.length ∧ c.length ≤ n) ∧
      (appendChunks n chunks rows).length
          = ceilDiv ((chunks.map List.length).sum + rows.length) n := by
  intro chunks
  induction chunks with
  | nil =>
    intro rows hfull hbounds
    refine ⟨?_, ?_, ?_, ?_⟩
    · simp only [appendChunks, chunkList_sum]
      simp
    · simpa [appendChunks] using chunkList_dropLast_full n hn rows
    · simpa [appendChunks] using chunkList_bounds n hn rows
    · simp only [appendChunks, chunkList_length n hn rows]
      simp
  | cons c cs ih =>
    intro rows hfull hbounds
    have hc := hbounds c (List.mem_cons_self c cs)
    cases cs with
    | nil =>
      have hsumtail :
          ((appendChunks n [c] rows).map List.length).sum
            = ([c].map List.length).sum + rows.length := by
        simp only [appendChunks, List.map_cons, List.sum_cons, List.map_nil,
          List.sum_nil, chunkList_sum, List.length_append, List.length_take,
          List.length_drop]
        omega
      refine ⟨hsumtail, ?_, ?_, ?_⟩
      · intro c1 hc1
        simp only [appendChunks] at hc1
        cases hrest : chunkList n (rows.drop (n - c.length)) with
        | nil => rw [hrest] at hc1; simp at hc1
        | cons r rs =>
          rw [hrest, List.dropLast_cons₂] at hc1
          rcases List.mem_cons.mp hc1 with hc1 | hc1
          · subst hc1
            have hne : rows.drop (n - c.length) ≠ [] := by
              intro hdrop
              rw [hdrop] at hrest
              simp [chunkList] at hrest
            have hlen : n - c.length < rows.length := by
              by_contra hcon
              exact hne (List.drop_eq_nil_of_le (by omega))
            simp only [List.length_append, List.length_take]
            omega
          · rw [← hrest] at hc1
            exact chunkList_dropLast_full n hn _ c1 hc1
      · intro c1 hc1
        simp only [appendChunks] at hc1
        rcases List.mem_cons.mp hc1 with hc1 | hc1
        · subst hc1
          simp only [List.length_append, List.length_take]
          omega
        · exact chunkList_bounds n hn _ c1 hc1
      · simp only [appendChunks, List.length_cons,
          chunkList_length n hn _, List.length_drop, List.map_cons,
          List.sum_cons, List.map_nil, List.sum_nil]
        rw [ceilDiv_step n hn (c.length + 0 + rows.length) (by omega)]
        have harg : rows.length - (n - c.length) = c.length + 0 + rows.length - n := by
          omega
        rw [harg]
    | cons c2 cs2 =>
      have hcfull : c.length = n := by
        apply hfull
        rw [List.dropLast_cons₂]
        exact List.mem_cons_self _ _
      have hfull2 : ∀ c1 ∈ (c2 :: cs2).dropLast, c1.length = n := by
        intro c1 hc1
        apply hfull
        rw [List.dropLast_cons₂]
        exact List.mem_cons_of_mem _ hc1
      have hbounds2 : ∀ c1 ∈ c2 :: cs2, 1 ≤ c1.length ∧ c1.length ≤ n := by
        intro c1 hc1
        exact hbounds c1 (List.mem_cons_of_mem _ hc1)
      obtain ⟨ihsum, ihfull, ihbounds, ihcount⟩ := ih rows hfull2 hbounds2
      have happ : appendChunks n (c :: c2 :: cs2) rows
          = c :: appendChunks n (c2 :: cs2) rows := rfl
      have hdrop : (c :: appendChunks n (c2 :: cs2) rows).dropLast
          = c :: (appendChunks n (c2 :: cs2) rows).dropLast :=
        List.dropLast_cons_of_ne_nil (appendChunks_cons_ne_nil n c2 cs2 rows)
      refine ⟨?_, ?_, ?_, ?_⟩
      · rw [happ]
        simp only [List.map_cons, List.sum_cons, ihsum]
        omega
      · intro c1 hc1
        rw [happ, hdrop] at hc1
        rcases List.mem_cons.mp hc1 with hc1 | hc1
        · exact hc1 ▸ hcfull
        · exact ihfull c1 hc1
      · intro c1 hc1
        rw [happ] at hc1
        rcases List.mem_cons.mp hc1 with hc1 | hc1
        · subst hc1
          omega
        · exact ihbounds c1 hc1
      · rw [happ, List.length_cons, ihcount]
        have harg2 : ((c :: c2 :: cs2).map List.length).sum + rows.length
            = (((c2 :: cs2).map List.length).sum + rows.length) + n := by
          simp only [List.map_cons, List.sum_cons]
          omega
        rw [harg2, ceilDiv_add_self _ _ hn]

theorem appendRows_inv (s : DatasetState) (rows : List RawRow)
    (h : DatasetInv s) : DatasetInv (appendRows s rows) := by
  obtain ⟨hn, hsum, hcnt, hceil, hfull, hbounds⟩ := h
  obtain ⟨asum, afull, abounds, acount⟩ :=
    appendChunks_spec s.chunkSize hn s.chunks rows hfull hbounds
  refine ⟨hn, ?_, rfl, ?_, afull, abounds⟩
  · simp only [appendRows, asum, hsum]
  · simp only [appendRows, acount, hsum]

theorem applyOp_inv (s : DatasetState) (op : StoreOp)
    (h : DatasetInv s) : DatasetInv (applyOp s op) := by
  cases op with
  | insertOp rows => exact batchInsert_inv s rows h.1
  | appendOp rows => exact appendRows_inv s rows h

theorem foldl_applyOp_inv (ops : List StoreOp) :
    ∀ (s : DatasetState), DatasetInv s → DatasetInv (ops.foldl applyOp s) := by
  induction ops with
  | nil => intro s h; exact h
  | cons op ops ih =>
    intro s h
    exact ih (applyOp s op) (applyOp_inv s op h)

theorem runOps_inv (n : Nat) (hn : 1 ≤ n) (ops : List StoreOp) :
    DatasetInv (runOps n ops) :=
  foldl_applyOp_inv ops (emptyDataset n) (emptyDataset_inv n hn)

/-- C1: after any sequence of batchInsert and append calls on a dataset
created empty with a positive chunk size, the stored chunk lengths sum
to the dataset's rowCount and chunkCount equals the ceiling of rowCount
over chunkSize. -/
theorem chunk_counts_consistent (n : Nat) (hn : 1 ≤ n) (ops : List StoreOp) :
    (((runOps n ops).chunks.map List.length).sum = (runOps n ops).rowCount) ∧
    ((runOps n ops).chunkCount = ceilDiv (runOps n ops).rowCount (runOps n ops).chunkSize) := by
  obtain ⟨_, hsum, _, hceil, _, _⟩ := runOps_inv n hn ops
  exact ⟨hsum.symm, hceil⟩

theorem chunk_counts_consistent_witness :
    1 ≤ 2 ∧
    ((((runOps 2 [StoreOp.insertOp [[("s", JSValue.str "pos")], [("s", JSValue.str "neg")],
            [("s", JSValue.str "pos")]],
          StoreOp.appendOp [[("s", JSValue.str "neu")]]]).chunks.map List.length).sum
        = (runOps 2 [StoreOp.insertOp [[("s", JSValue.str "pos")], [("s", JSValue.str "neg")],
            [("s", JSValue.str "pos")]],
          StoreOp.appendOp [[("s", JSValue.str "neu")]]]).rowCount) ∧
      ((runOps 2 [StoreOp.insertOp [[("s", JSValue.str "pos")], [("s", JSValue.str "neg")],
            [("s", JSValue.str "pos")]],
          StoreOp.appendOp [[("s", JSValue.str "neu")]]]).chunkCount
        = ceilDiv (runOps 2 [StoreOp.insertOp [[("s", JSValue.str "pos")], [("s", JSValue.str "neg")],
            [("s", JSValue.str "pos")]],
          StoreOp.appendOp [[("s", JSValue.str "neu")]]]).rowCount
          (runOps 2 [StoreOp.insertOp [[("s", JSValue.str "pos")], [("s", JSValue.str "neg")],
            [("s", JSValue.str "pos")]],
          StoreOp.appendOp [[("s", JSValue.str "neu")]]]).chunkSize)) :=
  ⟨by decide,
    chunk_counts_consistent 2 (by decide)
      [StoreOp.insertOp [[("s", JSValue.str "pos")], [("s", JSValue.str "neg")],
        [("s", JSValue.str "pos")]],
        StoreOp.appendOp [[("s", JSValue.str "neu")]]]⟩
